import Mathlib

/-!
Verification of the word-problems toolkit (`python_examples/wordproblems.py`).

Words and texts are modelled as `List Char` (Python strings are sequences of
code points; all comparisons in the source are code-point based).  Python
dictionaries are modelled as association lists that preserve insertion order,
which is the iteration order of Python dicts.  Python's `while` loops that are
not structurally recursive are modelled with an explicit fuel parameter large
enough to cover the loop (`Option` result, `none` = fuel exhausted or a Python
exception, as noted at each definition).
-/

namespace WordProblems

/-- The word type: a Python string as its list of characters. -/
abbrev Word := List Char

/-! ### Step 4 regex duplicate finder: `triple_duplicate`

The source computes `len(re.findall(r'(.)\1', x))`.  `re.findall` scans left
to right with non-overlapping matches: after a pair matches at position `i`,
scanning resumes at `i+2`.  `dupPairCount` models that count. -/

/-- Number of matches of the regex `(.)\1` in a word under `re.findall`
semantics (non-overlapping, left-to-right). -/
def dupPairCount : Word → Nat
  | c :: d :: rest => if c = d then 1 + dupPairCount rest else dupPairCount (d :: rest)
  | _ => 0

/-- `triple_duplicate(words)`: words with at least three duplicated pairs
(`[x for x in words if len(re.findall(r'(.)\1', x)) >= 3]`). -/
def triple_duplicate (words : List Word) : List Word :=
  words.filter (fun x => 3 ≤ dupPairCount x)

/-! ### Step 2C rotodromes -/

/-- Helper of `rotodromes`: `for i in range(1, len(word)) : w2 = word[i:] +
word[:i]; if word != w2 and w2 in wset: return True`. -/
def is_rotodrome (word : Word) (wset : List Word) : Bool :=
  (List.range' 1 (word.length - 1)).any fun i =>
    decide (word ≠ word.drop i ++ word.take i) &&
    decide ((word.drop i ++ word.take i) ∈ wset)

/-- `rotodromes(words) = [w for w in words if is_rotodrome(w, w_set)]` where
`w_set = set(words)` (membership in the set equals membership in the list). -/
def rotodromes (words : List Word) : List Word :=
  words.filter (fun w => is_rotodrome w words)

/-- The rotation offsets examined by `is_rotodrome` are `range(1, len(word))`,
i.e. `1 ≤ i < len(word)`: membership characterization. -/
theorem mem_rotodromes_iff (words : List Word) (w : Word) :
    w ∈ rotodromes words ↔
      w ∈ words ∧
        ∃ i, 1 ≤ i ∧ i < w.length ∧
          (w.drop i ++ w.take i ≠ w ∧ (w.drop i ++ w.take i) ∈ words) := by
  unfold rotodromes is_rotodrome
  rw [List.mem_filter]
  constructor
  · rintro ⟨hw, hany⟩
    rw [List.any_eq_true] at hany
    obtain ⟨i, hi, hprop⟩ := hany
    rw [List.mem_range'_1] at hi
    rw [Bool.and_eq_true, decide_eq_true_eq, decide_eq_true_eq] at hprop
    exact ⟨hw, i, hi.1, by omega, Ne.symm hprop.1, hprop.2⟩
  · rintro ⟨hw, i, h1, h2, hne, hmem⟩
    refine ⟨hw, ?_⟩
    rw [List.any_eq_true]
    refine ⟨i, ?_, ?_⟩
    · rw [List.mem_range'_1]; omega
    · rw [Bool.and_eq_true, decide_eq_true_eq, decide_eq_true_eq]
      exact ⟨Ne.symm hne, hmem⟩

/-- Claim C3, counterexample: the word "ab" is returned by
`rotodromes(["ab","ba"])` (the source examines offsets `range(1, len(word))`,
so offset `1 = len("ab") - 1` is tried), yet no offset in the claimed
half-open range `[1, len("ab") - 1) = [1, 1)` exists at all. -/
theorem rotodromes_offset_claim_false :
    ['a', 'b'] ∈ rotodromes [['a', 'b'], ['b', 'a']] ∧
      ¬ ∃ i, 1 ≤ i ∧ i < (['a', 'b'] : Word).length - 1 ∧
          ((['a', 'b'] : Word).drop i ++ (['a', 'b'] : Word).take i ≠ ['a', 'b'] ∧
            ((['a', 'b'] : Word).drop i ++ (['a', 'b'] : Word).take i) ∈
              [['a', 'b'], ['b', 'a']]) := by
  refine ⟨by decide, ?_⟩
  rintro ⟨i, h1, h2, -⟩
  simp only [List.length_cons, List.length_nil] at h2
  omega

/-- Claim C7: `triple_duplicate` returns exactly the words whose count of
non-overlapping consecutive duplicate pairs (the `re.findall(r'(.)\1', x)`
count) is at least 3; in particular
`triple_duplicate(["bookkeeper","hello"]) = ["bookkeeper"]`. -/
theorem triple_duplicate_correct :
    triple_duplicate
        [['b', 'o', 'o', 'k', 'k', 'e', 'e', 'p', 'e', 'r'], ['h', 'e', 'l', 'l', 'o']] =
      [['b', 'o', 'o', 'k', 'k', 'e', 'e', 'p', 'e', 'r']] ∧
    ∀ (words : List Word) (w : Word),
      w ∈ triple_duplicate words ↔ w ∈ words ∧ 3 ≤ dupPairCount w := by
  refine ⟨by decide, fun words w => ?_⟩
  unfold triple_duplicate
  rw [List.mem_filter, decide_eq_true_eq]

/-! ### Step 7 sliding window: `longest_substring_with_k_chars`

The dictionary `last_seen` is modelled as an association list in insertion
order (Python dict semantics): assignment `d[c] = i` updates in place if the
key exists and appends otherwise; `d.pop(key)` removes the key and raises
`KeyError` when absent (modelled by the `none` result). -/

/-- Python `d[c] = i` on an insertion-ordered dict. -/
def dictSet (d : List (Char × Nat)) (c : Char) (i : Nat) : List (Char × Nat) :=
  if d.any (fun p => decide (p.1 = c)) then
    d.map (fun p => if p.1 = c then (c, i) else p)
  else d ++ [(c, i)]

/-- The loop of `longest_substring_with_k_chars` over `enumerate(text)`, with
state `(last_seen, len_, max_, maxpos)`.  Returns `some (maxpos, max_)` at
loop end, `none` if `last_seen.pop(minc)` raises `KeyError`. -/
def lsGo (text : Word) (k : Nat) :
    List (Nat × Char) → List (Char × Nat) → Nat → Nat → Nat → Option (Nat × Nat)
  | [], _, _, max_, maxpos => some (maxpos, max_)
  | (i, c) :: rest, last_seen, len_, max_, maxpos =>
    if decide (last_seen.length < k) || last_seen.any (fun p => decide (p.1 = c)) then
      let ls2 := dictSet last_seen c i
      let len2 := len_ + 1
      if max_ < len2 then
        -- Python `maxpos = i - max_ + 1` with `max_ = len2`; `len2 ≤ i + 1`.
        lsGo text k rest ls2 len2 len2 (i + 1 - len2)
      else lsGo text k rest ls2 len2 max_ maxpos
    else
      -- find the least recently seen character, starting from (len(text), '$')
      let mm := last_seen.foldl
        (fun mm p => if p.2 < mm.1 then (p.2, p.1) else mm) (text.length, '$')
      if last_seen.any (fun p => decide (p.1 = mm.2)) then
        lsGo text k rest
          (dictSet (last_seen.filter (fun p => decide (p.1 ≠ mm.2))) c i)
          (i - mm.1) max_ maxpos
      else none

/-- `longest_substring_with_k_chars(text, k)`: run the loop, then return
`text[maxpos:maxpos + max_]`; `none` models the `KeyError` exception. -/
def longest_substring_with_k_chars (text : Word) (k : Nat) : Option Word :=
  match lsGo text k text.enum [] 0 0 0 with
  | some (maxpos, max_) => some ((text.drop maxpos).take max_)
  | none => none

/-- Claim C6, counterexample: with `k = 0` and the nonempty text "a" the
source raises `KeyError` (it pops the sentinel `'$'` from the empty
`last_seen` dict), so it does not return the empty string. -/
theorem longest_substring_k0_raises :
    longest_substring_with_k_chars ['a'] 0 ≠ some [] := by decide

/-- Claim C6, amended: the empty text yields the empty string for every `k`,
but `k = 0` on a nonempty text raises `KeyError` (modelled as `none`) rather
than returning the empty string. -/
theorem longest_substring_edge_cases (text : Word) (k : Nat) :
    longest_substring_with_k_chars [] k = some [] ∧
      (text ≠ [] → longest_substring_with_k_chars text 0 = none) := by
  constructor
  · rfl
  · intro h
    match text, h with
    | c :: rest, _ => rfl

/-- Witness for `longest_substring_edge_cases` at `text = "a"`, `k = 2`. -/
theorem longest_substring_edge_cases_witness :
    longest_substring_with_k_chars [] 2 = some [] ∧
      (['a'] : Word) ≠ [] ∧ longest_substring_with_k_chars ['a'] 0 = none := by
  obtain ⟨h1, h2⟩ := longest_substring_edge_cases ['a'] 2
  refine ⟨h1, by decide, ?_⟩
  exact (longest_substring_edge_cases ['a'] 0).2 (by decide)

/-! ### Letter-elimination table: `remain_words`

`result` holds, per word length, either a plain list (levels 0 and 1) or a
dict mapping each word to its elimination targets (levels ≥ 2, modelled as an
association list in insertion order).  The `while True` loop is modelled with
fuel `maxLen words + 2`, which always suffices because the loop stops at the
first length level with no qualifying words. -/

/-- A level of the `result` list built by `remain_words`. -/
inductive RWLevel where
  | strs : List Word → RWLevel
  | table : List (Word × List Word) → RWLevel
deriving DecidableEq

/-- Python `ww in result[wl - 1]`: list membership for the plain levels,
key membership for the dict levels. -/
def rwContains : RWLevel → Word → Bool
  | .strs l, w => decide (w ∈ l)
  | .table t, w => t.any (fun p => decide (p.1 = w))

/-- The inner loop of `remain_words`:
`for i in range(0, wl - 1): ww = w[:i] + w[i+1:]; if ww in result[wl-1]:
shorter.append(ww)`. -/
def rwTargets (prev : RWLevel) (wl : Nat) (w : Word) : List Word :=
  (List.range (wl - 1)).filterMap fun i =>
    let ww := w.take i ++ w.drop (i + 1)
    if rwContains prev ww then some ww else none

/-- One `while`-iteration body: the `next_level` dict for length `wl`
(a word is recorded iff its `shorter` list is nonempty). -/
def rwLevel (words : List Word) (prev : RWLevel) (wl : Nat) :
    List (Word × List Word) :=
  (words.filter (fun x => decide (x.length = wl))).filterMap fun w =>
    let shorter := rwTargets prev wl w
    if 0 < shorter.length then some (w, shorter) else none

/-- The `while True` loop of `remain_words`, fuelled. -/
def rwLoop (words : List Word) : Nat → List RWLevel → RWLevel → Nat → Option (List RWLevel)
  | 0, _, _, _ => none
  | fuel + 1, acc, prev, wl =>
    let nl := rwLevel words prev wl
    if nl.isEmpty then some acc
    else rwLoop words fuel (acc ++ [.table nl]) (.table nl) (wl + 1)

/-- Length of the longest input word. -/
def maxWordLen (words : List Word) : Nat :=
  words.foldr (fun w m => max w.length m) 0

/-- `remain_words(words)`: `result = [[], [x for x in words if len(x)==1]]`,
then the `while True` loop from `wl = 2`. -/
def remain_words (words : List Word) : Option (List RWLevel) :=
  let lvl1 := words.filter (fun x => decide (x.length = 1))
  rwLoop words (maxWordLen words + 2) [.strs [], .strs lvl1] (.strs lvl1) 2

/-- Claim C4: the source deletes characters only at positions
`range(0, wl - 1)`, never the last one.  On `words = ["a", "ab"]` the word
"ab" gets no recorded targets (the table stops at level 1) although deleting
its last character yields "a", which is present at level 1 — contradicting
both the claim and the function's own documentation. -/
theorem remain_words_misses_last_deletion :
    remain_words [['a'], ['a', 'b']] = some [.strs [], .strs [['a']]] ∧
      (['a', 'b'] : Word).take 1 ++ (['a', 'b'] : Word).drop 2 = ['a'] ∧
      rwContains (.strs [['a']]) ['a'] = true := by decide

/-! ### Python string comparison and `bisect`

Python compares strings lexicographically by code point; `wlt` is `<` and
`wle` is `≤` on words.  `bisect_left` / `bisect_right` are the stdlib binary
searches (`while lo < hi` loops, modelled with fuel `len(a)`, which bounds
the iteration count since `hi - lo` strictly decreases). -/

/-- Python string `<` (lexicographic by code point). -/
def wlt : Word → Word → Bool
  | [], [] => false
  | [], _ :: _ => true
  | _ :: _, [] => false
  | c :: u, d :: v =>
    if c.toNat < d.toNat then true
    else if d.toNat < c.toNat then false
    else wlt u v

/-- Python string `<=`. -/
def wle (u v : Word) : Bool := ! wlt v u

/-- `bisect_left` loop: `while lo < hi: mid = (lo+hi)//2;
if a[mid] < x: lo = mid+1 else: hi = mid`. -/
def bisectLeftGo (a : List Word) (x : Word) : Nat → Nat → Nat → Nat
  | 0, lo, _ => lo
  | fuel + 1, lo, hi =>
    if lo < hi then
      let mid := (lo + hi) / 2
      if wlt (a.getD mid []) x then bisectLeftGo a x fuel (mid + 1) hi
      else bisectLeftGo a x fuel lo mid
    else lo

/-- `bisect.bisect_left(a, x)`. -/
def bisect_left (a : List Word) (x : Word) : Nat :=
  bisectLeftGo a x a.length 0 a.length

/-- `bisect_right` loop: `while lo < hi: mid = (lo+hi)//2;
if x < a[mid]: hi = mid else: lo = mid+1`. -/
def bisectRightGo (a : List Word) (x : Word) : Nat → Nat → Nat → Nat
  | 0, lo, _ => lo
  | fuel + 1, lo, hi =>
    if lo < hi then
      let mid := (lo + hi) / 2
      if wlt x (a.getD mid []) then bisectRightGo a x fuel lo mid
      else bisectRightGo a x fuel (mid + 1) hi
    else lo

/-- `bisect.bisect_right(a, x)`. -/
def bisect_right (a : List Word) (x : Word) : Nat :=
  bisectRightGo a x a.length 0 a.length

theorem wlt_nil_right : ∀ u : Word, wlt u [] = false
  | [] => rfl
  | _ :: _ => rfl

theorem wlt_irrefl : ∀ u : Word, wlt u u = false
  | [] => rfl
  | c :: u => by simp [wlt, wlt_irrefl u]

theorem char_eq_of_toNat_eq {c d : Char} (h : c.toNat = d.toNat) : c = d := by
  have := congrArg Char.ofNat h
  rwa [Char.ofNat_toNat, Char.ofNat_toNat] at this

theorem wlt_cc_lt {c d : Char} {u v : Word} (h : c.toNat < d.toNat) :
    wlt (c :: u) (d :: v) = true := by simp [wlt, h]

theorem wlt_cc_gt {c d : Char} {u v : Word} (h : d.toNat < c.toNat) :
    wlt (c :: u) (d :: v) = false := by
  have : ¬ c.toNat < d.toNat := by omega
  simp [wlt, h, this]

theorem wlt_cc_eq {c d : Char} {u v : Word} (h : c.toNat = d.toNat) :
    wlt (c :: u) (d :: v) = wlt u v := by simp [wlt, h]

theorem wlt_trans : ∀ a b c : Word, wlt a b = true → wlt b c = true → wlt a c = true := by
  intro a
  induction a with
  | nil =>
    intro b c h1 h2
    match b, c with
    | _, [] => rw [wlt_nil_right] at h2; exact absurd h2 (by simp)
    | [], _ => simp [wlt] at h1
    | _ :: _, _ :: _ => simp [wlt]
  | cons ah at' ih =>
    intro b c h1 h2
    match b, c with
    | [], _ => rw [wlt_nil_right] at h1; exact absurd h1 (by simp)
    | _ :: _, [] => rw [wlt_nil_right] at h2; exact absurd h2 (by simp)
    | bh :: bt, ch :: ct =>
      rcases Nat.lt_trichotomy ah.toNat bh.toNat with hab | hab | hab
      · rcases Nat.lt_trichotomy bh.toNat ch.toNat with hbc | hbc | hbc
        · exact wlt_cc_lt (by omega)
        · exact wlt_cc_lt (by omega)
        · rw [wlt_cc_gt hbc] at h2; exact absurd h2 (by simp)
      · rcases Nat.lt_trichotomy bh.toNat ch.toNat with hbc | hbc | hbc
        · exact wlt_cc_lt (by omega)
        · rw [wlt_cc_eq hab] at h1
          rw [wlt_cc_eq hbc] at h2
          rw [wlt_cc_eq (by omega)]
          exact ih _ _ h1 h2
        · rw [wlt_cc_gt hbc] at h2; exact absurd h2 (by simp)
      · rw [wlt_cc_gt hab] at h1; exact absurd h1 (by simp)

theorem wlt_total : ∀ a b : Word, wlt a b = false → a = b ∨ wlt b a = true := by
  intro a
  induction a with
  | nil =>
    intro b h
    match b with
    | [] => exact Or.inl rfl
    | _ :: _ => simp [wlt] at h
  | cons ah at' ih =>
    intro b h
    match b with
    | [] => exact Or.inr rfl
    | bh :: bt =>
      rcases Nat.lt_trichotomy ah.toNat bh.toNat with hab | hab | hab
      · rw [wlt_cc_lt hab] at h; exact absurd h (by simp)
      · rw [wlt_cc_eq hab] at h
        rcases ih bt h with heq | hlt
        · exact Or.inl (by rw [char_eq_of_toNat_eq hab, heq])
        · exact Or.inr (by rw [wlt_cc_eq (by omega)]; exact hlt)
      · exact Or.inr (wlt_cc_lt hab)

theorem wle_wlt_trans (a b c : Word) (h1 : wle a b = true) (h2 : wlt b c = true) :
    wlt a c = true := by
  rw [wle, Bool.not_eq_true'] at h1
  rcases wlt_total b a h1 with heq | hlt
  · rwa [heq] at h2
  · exact wlt_trans a b c hlt h2

theorem wlt_wle_trans (a b c : Word) (h1 : wlt a b = true) (h2 : wle b c = true) :
    wlt a c = true := by
  rw [wle, Bool.not_eq_true'] at h2
  rcases wlt_total c b h2 with heq | hlt
  · rwa [← heq] at h1
  · exact wlt_trans a b c h1 hlt

theorem wlt_append_self (s t : Word) : wlt (s ++ t) s = false := by
  induction s with
  | nil => exact wlt_nil_right t
  | cons c s' ih => simp [wlt, ih]

theorem wlt_append_left (s t u : Word) : wlt (s ++ t) (s ++ u) = wlt t u := by
  induction s with
  | nil => rfl
  | cons c s' ih => simp [wlt, ih]

theorem prefix_of_between : ∀ s w t : Word, wlt w s = false → wlt (s ++ t) w = false →
    s <+: w := by
  intro s
  induction s with
  | nil => intro w t _ _; exact List.nil_prefix
  | cons c s' ih =>
    intro w t h1 h2
    match w with
    | [] => simp [wlt] at h1
    | d :: w' =>
      rw [List.cons_append] at h2
      rcases Nat.lt_trichotomy c.toNat d.toNat with hcd | hcd | hcd
      · rw [wlt_cc_lt hcd] at h2; exact absurd h2 (by simp)
      · rw [wlt_cc_eq (by omega)] at h1
        rw [wlt_cc_eq hcd] at h2
        obtain ⟨r, hr⟩ := ih w' t h1 h2
        exact ⟨r, by rw [char_eq_of_toNat_eq hcd, List.cons_append, hr]⟩
      · rw [wlt_cc_lt hcd] at h1; exact absurd h1 (by simp)

/-- The word list is sorted, the precondition of `bisect`. -/
def sortedWords (a : List Word) : Prop := a.Pairwise (fun u v => wle u v = true)

theorem sortedWords_le (a : List Word) (h : sortedWords a) (i j : Nat)
    (hij : i ≤ j) (hj : j < a.length) :
    wle (a.getD i []) (a.getD j []) = true := by
  rcases Nat.eq_or_lt_of_le hij with heq | hlt
  · rw [heq, wle, Bool.not_eq_true', wlt_irrefl]
  · have hi : i < a.length := Nat.lt_trans hlt hj
    rw [List.getD_eq_getElem _ _ hi, List.getD_eq_getElem _ _ hj]
    exact (List.pairwise_iff_getElem.1 h) i j hi hj hlt

theorem bisectLeftGo_spec (a : List Word) (x : Word) (hs : sortedWords a) :
    ∀ (fuel lo hi : Nat), hi - lo ≤ fuel → lo ≤ hi → hi ≤ a.length →
      (∀ j, j < lo → wlt (a.getD j []) x = true) →
      (∀ j, hi ≤ j → j < a.length → wlt (a.getD j []) x = false) →
      (∀ j, j < bisectLeftGo a x fuel lo hi → wlt (a.getD j []) x = true) ∧
        (∀ j, bisectLeftGo a x fuel lo hi ≤ j → j < a.length →
          wlt (a.getD j []) x = false) := by
  intro fuel
  induction fuel with
  | zero =>
    intro lo hi hfuel hlohi hhi pre1 pre2
    have : lo = hi := by omega
    subst this
    exact ⟨fun j hj => pre1 j hj, fun j hj hjl => pre2 j hj hjl⟩
  | succ fuel ih =>
    intro lo hi hfuel hlohi hhi pre1 pre2
    rw [bisectLeftGo]
    by_cases hlt : lo < hi
    · rw [if_pos hlt]
      have hmid1 : lo ≤ (lo + hi) / 2 := by
        rw [Nat.le_div_iff_mul_le (by omega)]; omega
      have hmid2 : (lo + hi) / 2 < hi := by
        rw [Nat.div_lt_iff_lt_mul (by omega)]; omega
      by_cases hbr : wlt (a.getD ((lo + hi) / 2) []) x = true
      · rw [if_pos hbr]
        refine ih ((lo + hi) / 2 + 1) hi (by omega) (by omega) hhi ?_ pre2
        intro j hj
        have hle : wle (a.getD j []) (a.getD ((lo + hi) / 2) []) = true :=
          sortedWords_le a hs j _ (by omega) (by omega)
        exact wle_wlt_trans _ _ _ hle hbr
      · rw [if_neg hbr]
        refine ih lo ((lo + hi) / 2) (by omega) (by omega) (by omega) pre1 ?_
        intro j hj hjl
        cases hwlt : wlt (a.getD j []) x
        · rfl
        · exfalso
          have hle : wle (a.getD ((lo + hi) / 2) []) (a.getD j []) = true :=
            sortedWords_le a hs _ j hj hjl
          exact hbr (wle_wlt_trans _ _ _ hle hwlt)
    · rw [if_neg hlt]
      have : lo = hi := by omega
      subst this
      exact ⟨fun j hj => pre1 j hj, fun j hj hjl => pre2 j hj hjl⟩

theorem bisectRightGo_spec (a : List Word) (x : Word) (hs : sortedWords a) :
    ∀ (fuel lo hi : Nat), hi - lo ≤ fuel → lo ≤ hi → hi ≤ a.length →
      (∀ j, j < lo → wlt x (a.getD j []) = false) →
      (∀ j, hi ≤ j → j < a.length → wlt x (a.getD j []) = true) →
      (∀ j, j < bisectRightGo a x fuel lo hi → wlt x (a.getD j []) = false) ∧
        (∀ j, bisectRightGo a x fuel lo hi ≤ j → j < a.length →
          wlt x (a.getD j []) = true) := by
  intro fuel
  induction fuel with
  | zero =>
    intro lo hi hfuel hlohi hhi pre1 pre2
    have : lo = hi := by omega
    subst this
    exact ⟨fun j hj => pre1 j hj, fun j hj hjl => pre2 j hj hjl⟩
  | succ fuel ih =>
    intro lo hi hfuel hlohi hhi pre1 pre2
    rw [bisectRightGo]
    by_cases hlt : lo < hi
    · rw [if_pos hlt]
      have hmid1 : lo ≤ (lo + hi) / 2 := by
        rw [Nat.le_div_iff_mul_le (by omega)]; omega
      have hmid2 : (lo + hi) / 2 < hi := by
        rw [Nat.div_lt_iff_lt_mul (by omega)]; omega
      by_cases hbr : wlt x (a.getD ((lo + hi) / 2) []) = true
      · rw [if_pos hbr]
        refine ih lo ((lo + hi) / 2) (by omega) (by omega) (by omega) pre1 ?_
        intro j hj hjl
        have hle : wle (a.getD ((lo + hi) / 2) []) (a.getD j []) = true :=
          sortedWords_le a hs _ j hj hjl
        exact wlt_wle_trans _ _ _ hbr hle
      · rw [if_neg hbr]
        refine ih ((lo + hi) / 2 + 1) hi (by omega) (by omega) hhi ?_ pre2
        intro j hj
        cases hwlt : wlt x (a.getD j [])
        · rfl
        · exfalso
          have hle : wle (a.getD j []) (a.getD ((lo + hi) / 2) []) = true :=
            sortedWords_le a hs j _ (by omega) (by omega)
          exact hbr (wlt_wle_trans _ _ _ hwlt hle)
    · rw [if_neg hlt]
      have : lo = hi := by omega
      subst this
      exact ⟨fun j hj => pre1 j hj, fun j hj hjl => pre2 j hj hjl⟩

theorem bisect_left_spec (a : List Word) (x : Word) (hs : sortedWords a) :
    (∀ j, j < bisect_left a x → wlt (a.getD j []) x = true) ∧
      (∀ j, bisect_left a x ≤ j → j < a.length → wlt (a.getD j []) x = false) :=
  bisectLeftGo_spec a x hs a.length 0 a.length (by omega) (by omega) (by omega)
    (fun j hj => absurd hj (by omega)) (fun j hj hjl => absurd hjl (by omega))

theorem bisect_right_spec (a : List Word) (x : Word) (hs : sortedWords a) :
    (∀ j, j < bisect_right a x → wlt x (a.getD j []) = false) ∧
      (∀ j, bisect_right a x ≤ j → j < a.length → wlt x (a.getD j []) = true) :=
  bisectRightGo_spec a x hs a.length 0 a.length (by omega) (by omega) (by omega)
    (fun j hj => absurd hj (by omega)) (fun j hj hjl => absurd hjl (by omega))

/-- Claim C2, counterexample: for the sorted lowercase word list `["bzz"]`,
chain-end word `"ab"` and `k = 1` (suffix `"b"`), the word `"bzz"` starts with
the suffix, yet index 0 is outside the candidate range: the upper sentinel
`suffix + k*'z' = "bz"` sorts before `"bzz"`, so `bisect_right` excludes it. -/
theorem word_chain_range_claim_false :
    sortedWords [['b', 'z', 'z']] ∧
      ((['a', 'b'] : Word).drop 1 <+: ['b', 'z', 'z']) ∧
      ¬ (bisect_left [['b', 'z', 'z']] ((['a', 'b'] : Word).drop 1) ≤ 0 ∧
          0 < bisect_right [['b', 'z', 'z']]
              ((['a', 'b'] : Word).drop 1 ++ List.replicate 1 'z')) := by
  refine ⟨?_, by decide, by decide⟩
  simp [sortedWords]

/-- Claim C2, amended: for a sorted word list, index `i` lies in the range
`[bisect_left(words, suffix), bisect_right(words, suffix + k*'z'))` examined
by `word_chain` iff `words[i]` starts with the suffix AND its continuation
after the suffix is ≤ `k*'z'` in Python string order (so in particular every
word in the range starts with the suffix, and every word starting with the
suffix that has at most `k` further characters is inside the range, but a
word whose continuation exceeds `'z'*k` — e.g. continuation `"zz"` with
`k = 1` — is missed). -/
theorem word_chain_range_exact (words : List Word) (w : Word) (k i : Nat)
    (hs : sortedWords words) (hi : i < words.length) :
    (bisect_left words (w.drop k) ≤ i ∧
        i < bisect_right words (w.drop k ++ List.replicate k 'z')) ↔
      ((w.drop k) <+: words.getD i [] ∧
        wle ((words.getD i []).drop (w.drop k).length) (List.replicate k 'z') = true) := by
  obtain ⟨bl1, bl2⟩ := bisect_left_spec words (w.drop k) hs
  obtain ⟨br1, br2⟩ := bisect_right_spec words (w.drop k ++ List.replicate k 'z') hs
  constructor
  · rintro ⟨h1, h2⟩
    have hlow : wlt (words.getD i []) (w.drop k) = false := bl2 i h1 hi
    have hhigh : wlt (w.drop k ++ List.replicate k 'z') (words.getD i []) = false := br1 i h2
    have hpre : (w.drop k) <+: words.getD i [] :=
      prefix_of_between (w.drop k) (words.getD i []) (List.replicate k 'z') hlow hhigh
    refine ⟨hpre, ?_⟩
    obtain ⟨t, ht⟩ := hpre
    rw [← ht, List.drop_left]
    rw [← ht, wlt_append_left] at hhigh
    rw [wle, hhigh]
    rfl
  · rintro ⟨hpre, hcont⟩
    obtain ⟨t, ht⟩ := hpre
    rw [← ht, List.drop_left] at hcont
    rw [wle, Bool.not_eq_true'] at hcont
    constructor
    · by_contra hio
      have := bl1 i (by omega)
      rw [← ht, wlt_append_self] at this
      exact absurd this (by simp)
    · by_contra hio
      have := br2 i (by omega) hi
      rw [← ht, wlt_append_left, hcont] at this
      exact absurd this (by simp)

/-- Witness for `word_chain_range_exact`: in the sorted list `["ab","ba"]`
with chain-end `"ab"` and `k = 1` (suffix `"b"`), index 1 (`"ba"`) is in the
examined range and starts with `"b"` with continuation `"a" ≤ "z"`. -/
theorem word_chain_range_exact_witness :
    sortedWords [['a', 'b'], ['b', 'a']] ∧
      ((bisect_left [['a', 'b'], ['b', 'a']] ((['a', 'b'] : Word).drop 1) ≤ 1 ∧
          1 < bisect_right [['a', 'b'], ['b', 'a']]
              ((['a', 'b'] : Word).drop 1 ++ List.replicate 1 'z')) ↔
        (((['a', 'b'] : Word).drop 1 <+: [['a', 'b'], ['b', 'a']].getD 1 []) ∧
          wle (([['a', 'b'], ['b', 'a']].getD 1 []).drop ((['a', 'b'] : Word).drop 1).length)
              (List.replicate 1 'z') = true)) := by
  have hs : sortedWords [['a', 'b'], ['b', 'a']] := by simp [sortedWords]; rfl
  exact ⟨hs, word_chain_range_exact [['a', 'b'], ['b', 'a']] ['a', 'b'] 1 1 hs (by decide)⟩

/-! ### Step 8 word chains: `word_chain`

`backtrack` mutates `chain` by `append`/`pop`; the model threads the list
state explicitly and returns `(result, final chain state)`.  The recursion
(which terminates because each appended word is a fresh member of `words`)
is modelled with fuel: `none` means fuel ran out or `chain[-1]` raised
`IndexError`; `some (res, st)` is a completed run with Python return value
`res` and final state `st` of the `chain` list object.  `BtState.inl chain`
enters `backtrack(chain)`; `BtState.inr (chain, idxs)` is the
`for idx in range(start, end)` loop with `idxs` still to try. -/

/-- One run of `backtrack`, fuelled.  In the loop case, after a failed
recursive call the source pops the appended word (`chain.pop()`); the model
continues with `after.dropLast` where `after` is the state returned by the
recursive call. -/
def btRun (words : List Word) (k len_ : Nat) :
    Nat → List Word ⊕ (List Word × List Nat) → Option (Option (List Word) × List Word)
  | 0, _ => none
  | fuel + 1, .inl chain =>
    if chain.length = len_ then some (some chain, chain)
    else
      match chain.getLast? with
      | none => none  -- `chain[-1]` raises IndexError on an empty chain
      | some last =>
        let suffix := last.drop k
        let start := bisect_left words suffix
        let stop := bisect_right words (suffix ++ List.replicate k 'z')
        btRun words k len_ fuel (.inr (chain, List.range' start (stop - start)))
  | _ + 1, .inr (chain, []) => some (none, chain)
  | fuel + 1, .inr (chain, idx :: rest) =>
    let word := words.getD idx []
    if ((chain.getLastD []).length : Int) - k < word.length ∧ word ∉ chain then
      match btRun words k len_ fuel (.inl (chain ++ [word])) with
      | none => none
      | some (some c, after) => some (some c, after)
      | some (none, after) => btRun words k len_ fuel (.inr (after.dropLast, rest))
    else btRun words k len_ fuel (.inr (chain, rest))

/-- Chain state carried by a backtracker state. -/
def btChainOf : List Word ⊕ (List Word × List Nat) → List Word
  | .inl chain => chain
  | .inr (chain, _) => chain

/-- Every completed run that reports failure leaves the chain state exactly
as it found it: each `append` was undone by a matching `pop`. -/
theorem btRun_none_restores (words : List Word) (k len_ : Nat) :
    ∀ (fuel : Nat) (st : List Word ⊕ (List Word × List Nat)) (out : List Word),
      btRun words k len_ fuel st = some (none, out) → out = btChainOf st := by
  intro fuel
  induction fuel with
  | zero => intro st out h; simp [btRun] at h
  | succ fuel ih =>
    intro st out h
    match st with
    | .inl chain =>
      rw [btRun] at h
      split at h
      · simp at h
      · split at h
        · simp at h
        · dsimp only at h
          simpa [btChainOf] using ih _ _ h
    | .inr (chain, []) =>
      rw [btRun] at h
      simp only [Option.some.injEq, Prod.mk.injEq] at h
      simpa [btChainOf] using h.2.symm
    | .inr (chain, idx :: rest) =>
      rw [btRun] at h
      split at h
      · split at h
        · simp at h
        · simp at h
        · rename_i after hafter
          have hrest := ih _ _ h
          have hinner : after = chain ++ [words.getD idx []] := ih _ _ hafter
          simp only [btChainOf] at hrest ⊢
          rw [hrest, hinner, List.dropLast_concat]
      · simpa [btChainOf] using ih _ _ h

/-- Claim C9: if `word_chain` reports failure (`None`), the seed chain list
`first` holds exactly the same elements in the same order as at call time.
Stated for every fuelled complete run of `backtrack(first)`. -/
theorem word_chain_none_preserves_first (words first : List Word) (k len_ fuel : Nat)
    (out : List Word)
    (h : btRun words k len_ fuel (.inl first) = some (none, out)) : out = first :=
  btRun_none_restores words k len_ fuel (.inl first) out h

/-- Witness: `word_chain(["ab"], ["zz"], 1, 2)` finds no chain and leaves
`["zz"]` untouched. -/
theorem word_chain_none_preserves_first_witness :
    btRun [['a', 'b']] 1 2 5 (.inl [['z', 'z']]) = some (none, [['z', 'z']]) ∧
      ([['z', 'z']] : List Word) = [['z', 'z']] := by
  refine ⟨by decide, ?_⟩
  exact word_chain_none_preserves_first [['a', 'b']] [['z', 'z']] 1 2 5 [['z', 'z']] (by decide)

/-! ### Anagram grouping via prime codes -/

/-- The first 26 prime numbers, one for each letter from a to z. -/
def primes26 : List Nat :=
  [2, 3, 5, 7, 11, 13, 17, 19, 23, 29, 31, 37, 41, 43,
   47, 53, 59, 61, 67, 71, 73, 79, 83, 89, 97, 101]

/-- `__primes[ord(c) - ord('a')]` (in bounds exactly for lowercase a–z,
which is the domain the claims quantify over). -/
def primeOf (c : Char) : Nat := primes26.getD (c.toNat - 97) 1

/-- `prime_code(word)`: `code = 1; for c in word: code *= __primes[...]`. -/
def prime_code (word : Word) : Nat := word.foldl (fun code c => code * primeOf c) 1

/-- The character is one of the lowercase letters a–z. -/
def isLowerAZ (c : Char) : Bool := decide (97 ≤ c.toNat) && decide (c.toNat ≤ 122)

/-- `all_anagrams(words)` as the mapping from a prime code to the list of
words filed under it (`codes[code] = codes.get(code, []) + [word]`). -/
def all_anagrams (words : List Word) : Nat → List Word :=
  words.foldl
    (fun codes word n => if n = prime_code word then codes n ++ [word] else codes n)
    (fun _ => [])

theorem prime_code_foldl (w : Word) (a : Nat) :
    w.foldl (fun code c => code * primeOf c) a = a * (w.map primeOf).prod := by
  induction w generalizing a with
  | nil => simp
  | cons c w ih => simp [List.foldl_cons, ih, Nat.mul_assoc]

theorem prime_code_eq_prod (w : Word) : prime_code w = (w.map primeOf).prod := by
  have h := prime_code_foldl w 1
  simpa [prime_code] using h

theorem primes26_all_prime : ∀ p ∈ primes26, Nat.Prime p := by decide

theorem primeOf_mem (c : Char) (h : isLowerAZ c = true) : primeOf c ∈ primes26 := by
  simp only [isLowerAZ, Bool.and_eq_true, decide_eq_true_eq] at h
  have hidx : c.toNat - 97 < primes26.length := by simp [primes26]; omega
  rw [primeOf, List.getD_eq_getElem _ _ hidx]
  exact List.getElem_mem hidx

theorem primeOf_pos (c : Char) : 0 < primeOf c := by
  by_cases h : c.toNat - 97 < primes26.length
  · rw [primeOf, List.getD_eq_getElem _ _ h]
    have := List.getElem_mem h
    have hall : ∀ p ∈ primes26, 0 < p := by decide
    exact hall _ this
  · rw [primeOf, List.getD_eq_default _ _ (by omega)]
    exact Nat.one_pos

theorem primeOf_prime (c : Char) (h : isLowerAZ c = true) : Nat.Prime (primeOf c) :=
  primes26_all_prime _ (primeOf_mem c h)

theorem primeOf_injOn (c d : Char) (hc : isLowerAZ c = true) (hd : isLowerAZ d = true)
    (h : primeOf c = primeOf d) : c = d := by
  simp only [isLowerAZ, Bool.and_eq_true, decide_eq_true_eq] at hc hd
  have key : ∀ i, i < 26 → ∀ j, j < 26 → primes26.getD i 1 = primes26.getD j 1 → i = j := by
    decide
  have hij : c.toNat - 97 = d.toNat - 97 :=
    key _ (by omega) _ (by omega) h
  have htn : c.toNat = d.toNat := by omega
  have : Char.ofNat c.toNat = Char.ofNat d.toNat := by rw [htn]
  rwa [Char.ofNat_toNat, Char.ofNat_toNat] at this

theorem count_map_primeOf (u : Word) (c : Char)
    (hu : ∀ a ∈ u, isLowerAZ a = true) (hc : isLowerAZ c = true) :
    (u.map primeOf).count (primeOf c) = u.count c := by
  induction u with
  | nil => simp
  | cons a u ih =>
    have ha := hu a (List.mem_cons_self a u)
    have hrest : ∀ b ∈ u, isLowerAZ b = true := fun b hb => hu b (List.mem_cons_of_mem a hb)
    by_cases hac : a = c
    · subst hac
      simp [List.count_cons_self, ih hrest]
    · have hne : primeOf a ≠ primeOf c := fun h => hac (primeOf_injOn a c ha hc h)
      rw [List.map_cons, List.count_cons_of_ne (Ne.symm hne), List.count_cons_of_ne (fun h => hac h.symm)]
      exact ih hrest

theorem prime_code_eq_iff_perm (u v : Word)
    (hu : ∀ c ∈ u, isLowerAZ c = true) (hv : ∀ c ∈ v, isLowerAZ c = true) :
    prime_code u = prime_code v ↔ u.Perm v := by
  constructor
  · intro h
    rw [prime_code_eq_prod, prime_code_eq_prod] at h
    have hpu : ∀ p ∈ u.map primeOf, Nat.Prime p := by
      intro p hp
      obtain ⟨a, ha, rfl⟩ := List.mem_map.1 hp
      exact primeOf_prime a (hu a ha)
    have hpv : ∀ p ∈ v.map primeOf, Nat.Prime p := by
      intro p hp
      obtain ⟨a, ha, rfl⟩ := List.mem_map.1 hp
      exact primeOf_prime a (hv a ha)
    have f1 := Nat.primeFactorsList_unique (n := (u.map primeOf).prod) rfl hpu
    have f2 := Nat.primeFactorsList_unique (n := (u.map primeOf).prod) h.symm hpv
    have hperm : (u.map primeOf).Perm (v.map primeOf) := f1.trans f2.symm
    rw [List.perm_iff_count]
    intro c
    by_cases hlc : isLowerAZ c = true
    · rw [← count_map_primeOf u c hu hlc, ← count_map_primeOf v c hv hlc]
      exact hperm.count_eq _
    · have hcu : c ∉ u := fun hmem => hlc (hu c hmem)
      have hcv : c ∉ v := fun hmem => hlc (hv c hmem)
      rw [List.count_eq_zero.2 hcu, List.count_eq_zero.2 hcv]
  · intro h
    rw [prime_code_eq_prod, prime_code_eq_prod]
    exact (h.map primeOf).prod_eq

/-- Claim C1: for lowercase words, `prime_code(u) == prime_code(v)` iff `u`
and `v` are anagrams (contain the same letters with the same multiplicities);
and `all_anagrams(["bca","abc","cab","xyz"])` files "bca", "abc", "cab" under
one code and "xyz" under a different one. -/
theorem prime_code_anagram_iff (u v : Word)
    (hu : ∀ c ∈ u, isLowerAZ c = true) (hv : ∀ c ∈ v, isLowerAZ c = true) :
    (prime_code u = prime_code v ↔ u.Perm v) ∧
      all_anagrams [['b', 'c', 'a'], ['a', 'b', 'c'], ['c', 'a', 'b'], ['x', 'y', 'z']]
          (prime_code ['b', 'c', 'a']) =
        [['b', 'c', 'a'], ['a', 'b', 'c'], ['c', 'a', 'b']] ∧
      all_anagrams [['b', 'c', 'a'], ['a', 'b', 'c'], ['c', 'a', 'b'], ['x', 'y', 'z']]
          (prime_code ['x', 'y', 'z']) =
        [['x', 'y', 'z']] ∧
      prime_code ['b', 'c', 'a'] ≠ prime_code ['x', 'y', 'z'] :=
  ⟨prime_code_eq_iff_perm u v hu hv, by decide, by decide, by decide⟩

/-- Witness for `prime_code_anagram_iff` at `u = "ab"`, `v = "ba"`. -/
theorem prime_code_anagram_iff_witness :
    (∀ c ∈ (['a', 'b'] : Word), isLowerAZ c = true) ∧
      (prime_code ['a', 'b'] = prime_code ['b', 'a'] ↔ (['a', 'b'] : Word).Perm ['b', 'a']) := by
  refine ⟨by decide, ?_⟩
  exact (prime_code_anagram_iff ['a', 'b'] ['b', 'a'] (by decide) (by decide)).1

/-- Claim C10: `prime_code` is a monoid homomorphism from lowercase strings
under concatenation to positive integers under multiplication:
`prime_code("") = 1`, `prime_code(u + v) = prime_code(u) * prime_code(v)`,
and `prime_code(w) ≥ 1`. -/
theorem prime_code_hom (u v : Word)
    (_hu : ∀ c ∈ u, isLowerAZ c = true) (_hv : ∀ c ∈ v, isLowerAZ c = true) :
    prime_code ([] : Word) = 1 ∧
      prime_code (u ++ v) = prime_code u * prime_code v ∧
      1 ≤ prime_code u := by
  refine ⟨rfl, ?_, ?_⟩
  · rw [prime_code_eq_prod, prime_code_eq_prod, prime_code_eq_prod, List.map_append,
      List.prod_append]
  · rw [prime_code_eq_prod]
    have : ∀ p ∈ u.map primeOf, 0 < p := by
      intro p hp
      obtain ⟨a, _, rfl⟩ := List.mem_map.1 hp
      exact primeOf_pos a
    exact List.prod_pos this

/-- Witness for `prime_code_hom` at `u = "ab"`, `v = "c"`. -/
theorem prime_code_hom_witness :
    prime_code ([] : Word) = 1 ∧
      prime_code (['a', 'b'] ++ ['c']) = prime_code ['a', 'b'] * prime_code ['c'] ∧
      1 ≤ prime_code ['a', 'b'] :=
  prime_code_hom ['a', 'b'] ['c'] (by decide) (by decide)

/-! ### Step 3 consonant rotation: `rotate_consonants`

`__cons = "bcdfghjklmnpqrstvwxyz"; __cons += __cons.upper()`.  The loop walks
the text; at the `pos`-th consonant slot it places the consonant found at
slot `(pos + off) % len(cons_pos)`, case-mapped to the current character;
other characters pass through.  Python's `%` on a positive modulus yields a
non-negative result, matching `Int.emod`. -/

/-- The 21 lowercase consonants of `__cons`. -/
def consChars : List Char :=
  ['b', 'c', 'd', 'f', 'g', 'h', 'j', 'k', 'l', 'm', 'n',
   'p', 'q', 'r', 's', 't', 'v', 'w', 'x', 'y', 'z']

/-- `__cons` after appending its uppercase form. -/
def consList : List Char := consChars ++ consChars.map Char.toUpper

/-- Python `c in __cons`. -/
def isCons (c : Char) : Bool := decide (c ∈ consList)

/-- `cons_pos = [i for (i, c) in enumerate(text) if c in __cons]`, generalized
over the start index for the induction. -/
def consPosFrom : Nat → List Char → List Nat
  | _, [] => []
  | i, c :: rest =>
    if isCons c then i :: consPosFrom (i + 1) rest else consPosFrom (i + 1) rest

/-- The positions of all consonants in the text. -/
def consPos (t : List Char) : List Nat := consPosFrom 0 t

/-- `sc.upper() if c.isupper() else sc.lower()`. -/
def caseAdj (c sc : Char) : Char := if c.isUpper then sc.toUpper else sc.toLower

/-- The character-processing loop of `rotate_consonants` with its running
consonant counter `pos`. -/
def rcGo (full : List Char) (cp : List Nat) (off : Int) : List Char → Nat → List Char
  | [], _ => []
  | c :: rest, pos =>
    if isCons c then
      caseAdj c
          (full.getD (cp.getD ((((pos : Nat) : Int) + off) % (cp.length : Int)).toNat 0) 'a')
        :: rcGo full cp off rest ((pos + 1) % cp.length)
    else c :: rcGo full cp off rest pos

/-- `rotate_consonants(text, off)`. -/
def rotate_consonants (text : List Char) (off : Int) : List Char :=
  rcGo text (consPos text) off text 0

theorem rcGo_length (full : List Char) (cp : List Nat) (off : Int) :
    ∀ (rest : List Char) (pos : Nat), (rcGo full cp off rest pos).length = rest.length := by
  intro rest
  induction rest with
  | nil => intro pos; rfl
  | cons c r ih =>
    intro pos
    by_cases hc : isCons c
    · simp [rcGo, hc, ih]
    · simp [rcGo, hc, ih]

/-- Claim C8: a text with no consonant characters is returned unchanged (the
branch containing the `% len(cons_pos)` — the only division/modulo in the
function — requires `c in __cons` and is never entered). -/
theorem rotate_consonants_no_consonants (text : List Char) (off : Int)
    (h : ∀ c ∈ text, isCons c = false) : rotate_consonants text off = text := by
  rw [rotate_consonants]
  generalize consPos text = cp
  suffices hgen : ∀ (rest : List Char) (pos : Nat), (∀ c ∈ rest, isCons c = false) →
      rcGo text cp off rest pos = rest by
    exact hgen text 0 h
  intro rest
  induction rest with
  | nil => intro pos _; rfl
  | cons c r ih =>
    intro pos hall
    have hc : isCons c = false := hall c (List.mem_cons_self c r)
    rw [rcGo, hc]
    simp only [Bool.false_eq_true, if_false]
    rw [ih pos (fun d hd => hall d (List.mem_cons_of_mem c hd))]

/-- Witness for `rotate_consonants_no_consonants` on the all-vowel text
"aeiou" with offset 3. -/
theorem rotate_consonants_no_consonants_witness :
    (∀ c ∈ (['a', 'e', 'i', 'o', 'u'] : List Char), isCons c = false) ∧
      rotate_consonants ['a', 'e', 'i', 'o', 'u'] 3 = ['a', 'e', 'i', 'o', 'u'] :=
  ⟨by decide, rotate_consonants_no_consonants ['a', 'e', 'i', 'o', 'u'] 3 (by decide)⟩

theorem natCast_mod_shift (pos cnt n : Nat) (off : Int) :
    ((((pos + 1) % n + cnt : Nat) : Int) + off) % (n : Int) =
      (((pos + 1 + cnt : Nat) : Int) + off) % (n : Int) := by
  have hcast : (((pos + 1) % n : Nat) : Int) = ((pos + 1 : Nat) : Int) % (n : Int) :=
    Int.natCast_mod _ _
  push_cast [hcast]
  rw [add_assoc, Int.emod_add_emod, ← add_assoc]

/-- Pointwise description of the `rcGo` loop: position `j` of the output is
the case-adjusted consonant fetched at index
`(pos + number of consonants among the first j characters + off) mod |cp|`
when position `j` holds a consonant, and the original character otherwise. -/
theorem rcGo_getD (full : List Char) (cp : List Nat) (off : Int) :
    ∀ (rest : List Char) (pos j : Nat), j < rest.length →
      (rcGo full cp off rest pos).getD j 'a' =
        if isCons (rest.getD j 'a') = true then
          caseAdj (rest.getD j 'a')
            (full.getD (cp.getD
              ((((pos + (rest.take j).countP (fun c => isCons c) : Nat) : Int) + off) %
                (cp.length : Int)).toNat 0) 'a')
        else rest.getD j 'a' := by
  intro rest
  induction rest with
  | nil => intro pos j hj; simp at hj
  | cons c r ih =>
    intro pos j hj
    by_cases hc : isCons c
    · rw [rcGo, if_pos hc]
      match j with
      | 0 =>
        simp only [List.getD_cons_zero, List.take_zero, List.countP_nil, Nat.add_zero, hc,
          if_pos]
      | j + 1 =>
        rw [List.getD_cons_succ, List.getD_cons_succ,
          ih ((pos + 1) % cp.length) j (by simpa using hj)]
        rw [List.take_succ_cons, List.countP_cons_of_pos _ _ hc]
        by_cases hcj : isCons (r.getD j 'a') = true
        · rw [if_pos hcj, if_pos hcj]
          rw [natCast_mod_shift pos ((r.take j).countP (fun c => isCons c)) cp.length off]
          have harith : pos + 1 + (r.take j).countP (fun c => isCons c) =
              pos + ((r.take j).countP (fun c => isCons c) + 1) := by omega
          rw [harith]
        · rw [if_neg hcj, if_neg hcj]
    · rw [rcGo, if_neg (by simp [hc])]
      match j with
      | 0 => simp only [List.getD_cons_zero, hc]; rw [if_neg (by simp [hc])]
      | j + 1 =>
        rw [List.getD_cons_succ, List.getD_cons_succ, ih pos j (by simpa using hj)]
        rw [List.take_succ_cons, List.countP_cons_of_neg _ _ (by simp [hc])]

theorem consPosFrom_length : ∀ (t : List Char) (s : Nat),
    (consPosFrom s t).length = t.countP (fun c => isCons c) := by
  intro t
  induction t with
  | nil => intro s; rfl
  | cons c r ih =>
    intro s
    by_cases hc : isCons c
    · rw [consPosFrom, if_pos hc, List.countP_cons_of_pos _ _ hc]
      simp [ih (s + 1)]
    · rw [consPosFrom, if_neg (by simp [hc]), List.countP_cons_of_neg _ _ (by simp [hc])]
      exact ih (s + 1)

theorem consPosFrom_mem_ge : ∀ (t : List Char) (s x : Nat), x ∈ consPosFrom s t → s ≤ x := by
  intro t
  induction t with
  | nil => intro s x hx; simp [consPosFrom] at hx
  | cons c r ih =>
    intro s x hx
    by_cases hc : isCons c
    · rw [consPosFrom, if_pos hc] at hx
      rcases List.mem_cons.1 hx with heq | htail
      · omega
      · have := ih (s + 1) x htail; omega
    · rw [consPosFrom, if_neg (by simp [hc])] at hx
      have := ih (s + 1) x hx; omega

theorem consPosFrom_getD_count : ∀ (t : List Char) (s i : Nat), i < t.length →
    isCons (t.getD i 'a') = true →
    (consPosFrom s t).getD ((t.take i).countP (fun c => isCons c)) 0 = s + i := by
  intro t
  induction t with
  | nil => intro s i hi; simp at hi
  | cons c r ih =>
    intro s i hi hci
    by_cases hc : isCons c
    · rw [consPosFrom, if_pos hc]
      match i with
      | 0 => simp
      | i + 1 =>
        rw [List.take_succ_cons, List.countP_cons_of_pos _ _ hc, List.getD_cons_succ]
        rw [List.getD_cons_succ] at hci
        rw [ih (s + 1) i (by simpa using hi) hci]
        omega
    · rw [consPosFrom, if_neg (by simp [hc])]
      match i with
      | 0 => rw [List.getD_cons_zero] at hci; exact absurd hci (by simp [hc])
      | i + 1 =>
        rw [List.take_succ_cons, List.countP_cons_of_neg _ _ (by simp [hc])]
        rw [List.getD_cons_succ] at hci
        rw [ih (s + 1) i (by simpa using hi) hci]
        omega

theorem consPosFrom_getD_valid : ∀ (t : List Char) (s q : Nat),
    q < (consPosFrom s t).length →
    ∃ i, i < t.length ∧ (consPosFrom s t).getD q 0 = s + i ∧ isCons (t.getD i 'a') = true := by
  intro t
  induction t with
  | nil => intro s q hq; simp [consPosFrom] at hq
  | cons c r ih =>
    intro s q hq
    by_cases hc : isCons c
    · rw [consPosFrom, if_pos hc] at hq ⊢
      match q with
      | 0 => exact ⟨0, by simp, by simp, by simpa using hc⟩
      | q + 1 =>
        obtain ⟨i, hi, hg, hci⟩ := ih (s + 1) q (by simpa using hq)
        refine ⟨i + 1, by simpa using hi, ?_, by simpa using hci⟩
        rw [List.getD_cons_succ, hg]
        omega
    · rw [consPosFrom, if_neg (by simp [hc])] at hq ⊢
      obtain ⟨i, hi, hg, hci⟩ := ih (s + 1) q hq
      exact ⟨i + 1, by simpa using hi, by rw [hg]; omega, by simpa using hci⟩

theorem consPosFrom_count_at : ∀ (t : List Char) (s q : Nat),
    q < (consPosFrom s t).length →
    (t.take ((consPosFrom s t).getD q 0 - s)).countP (fun c => isCons c) = q := by
  intro t
  induction t with
  | nil => intro s q hq; simp [consPosFrom] at hq
  | cons c r ih =>
    intro s q hq
    by_cases hc : isCons c
    · rw [consPosFrom, if_pos hc] at hq ⊢
      match q with
      | 0 => simp
      | q + 1 =>
        rw [List.getD_cons_succ]
        have hq' : q < (consPosFrom (s + 1) r).length := by simpa using hq
        have hmem : (consPosFrom (s + 1) r).getD q 0 ∈ consPosFrom (s + 1) r := by
          rw [List.getD_eq_getElem _ _ hq']
          exact List.getElem_mem hq'
        have hge : s + 1 ≤ (consPosFrom (s + 1) r).getD q 0 :=
          consPosFrom_mem_ge r (s + 1) _ hmem
        have hsub : (consPosFrom (s + 1) r).getD q 0 - s =
            ((consPosFrom (s + 1) r).getD q 0 - (s + 1)) + 1 := by omega
        rw [hsub, List.take_succ_cons, List.countP_cons_of_pos _ _ hc, ih (s + 1) q hq']
    · rw [consPosFrom, if_neg (by simp [hc])] at hq ⊢
      have hmem : (consPosFrom (s + 1) r).getD q 0 ∈ consPosFrom (s + 1) r := by
        rw [List.getD_eq_getElem _ _ hq]
        exact List.getElem_mem hq
      have hge : s + 1 ≤ (consPosFrom (s + 1) r).getD q 0 :=
        consPosFrom_mem_ge r (s + 1) _ hmem
      have hsub : (consPosFrom (s + 1) r).getD q 0 - s =
          ((consPosFrom (s + 1) r).getD q 0 - (s + 1)) + 1 := by omega
      rw [hsub, List.take_succ_cons, List.countP_cons_of_neg _ _ (by simp [hc]),
        ih (s + 1) q hq]

theorem countP_take_lt (t : List Char) (i : Nat) (hi : i < t.length)
    (hci : isCons (t.getD i 'a') = true) :
    (t.take i).countP (fun c => isCons c) < t.countP (fun c => isCons c) := by
  conv_rhs => rw [← List.take_append_drop i t]
  rw [List.countP_append]
  have hdrop : t.drop i = t.getD i 'a' :: t.drop (i + 1) := by
    rw [List.getD_eq_getElem _ _ hi]
    exact List.drop_eq_getElem_cons hi
  rw [hdrop, List.countP_cons_of_pos _ _ hci]
  omega

theorem consPosFrom_pattern_eq : ∀ (t1 t2 : List Char) (s : Nat),
    t1.length = t2.length →
    (∀ j, j < t1.length → isCons (t1.getD j 'a') = isCons (t2.getD j 'a')) →
    consPosFrom s t1 = consPosFrom s t2 := by
  intro t1
  induction t1 with
  | nil =>
    intro t2 s hlen _
    match t2 with
    | [] => rfl
    | _ :: _ => simp at hlen
  | cons c r ih =>
    intro t2 s hlen hpat
    match t2 with
    | [] => simp at hlen
    | d :: r2 =>
      have hhead : isCons c = isCons d := by
        have := hpat 0 (by simp)
        simpa using this
      have htail : ∀ j, j < r.length → isCons (r.getD j 'a') = isCons (r2.getD j 'a') := by
        intro j hj
        have := hpat (j + 1) (by simpa using Nat.succ_lt_succ hj)
        simpa using this
      have hlen' : r.length = r2.length := by simpa using hlen
      by_cases hc : isCons c
      · rw [consPosFrom, consPosFrom, if_pos hc, if_pos (by rw [← hhead]; exact hc),
          ih r2 (s + 1) hlen' htail]
      · rw [consPosFrom, consPosFrom, if_neg (by simp [hc]),
          if_neg (by rw [← hhead]; simp [hc]), ih r2 (s + 1) hlen' htail]

theorem countP_pattern_eq : ∀ (t1 t2 : List Char),
    t1.length = t2.length →
    (∀ j, j < t1.length → isCons (t1.getD j 'a') = isCons (t2.getD j 'a')) →
    t1.countP (fun c => isCons c) = t2.countP (fun c => isCons c) := by
  intro t1
  induction t1 with
  | nil =>
    intro t2 hlen _
    match t2 with
    | [] => rfl
    | _ :: _ => simp at hlen
  | cons c r ih =>
    intro t2 hlen hpat
    match t2 with
    | [] => simp at hlen
    | d :: r2 =>
      have hhead : isCons c = isCons d := by simpa using hpat 0 (by simp)
      have htail : ∀ j, j < r.length → isCons (r.getD j 'a') = isCons (r2.getD j 'a') := by
        intro j hj
        simpa using hpat (j + 1) (by simpa using Nat.succ_lt_succ hj)
      have hlen' : r.length = r2.length := by simpa using hlen
      by_cases hc : isCons c
      · rw [List.countP_cons_of_pos _ _ hc,
          List.countP_cons_of_pos _ _ (by rw [← hhead]; exact hc), ih r2 hlen' htail]
      · rw [List.countP_cons_of_neg _ _ (by simp [hc]),
          List.countP_cons_of_neg _ _ (by rw [← hhead]; simp [hc]), ih r2 hlen' htail]

theorem caseAdj_congr {a b : Char} (h : a.isUpper = b.isUpper) (w : Char) :
    caseAdj a w = caseAdj b w := by
  unfold caseAdj
  rw [h]

theorem consList_caseAdj_facts :
    ∀ y ∈ consList, ∀ z ∈ consList,
      (caseAdj y z).isUpper = y.isUpper ∧ isCons (caseAdj y z) = true ∧
        caseAdj y (caseAdj z y) = y := by decide

theorem isCons_iff_mem {c : Char} : isCons c = true ↔ c ∈ consList := by
  rw [isCons, decide_eq_true_eq]

theorem getD_take_eq (l : List Char) (jn i : Nat) (hij : i < jn) (hl : i < l.length) :
    (l.take jn).getD i 'a' = l.getD i 'a' := by
  rw [List.getD_eq_getElem _ _ (by rw [List.length_take]; omega),
    List.getD_eq_getElem _ _ hl]
  exact List.getElem_take l

theorem consPos_length (t : List Char) :
    (consPos t).length = t.countP (fun c => isCons c) :=
  consPosFrom_length t 0

theorem consPos_getD_valid (t : List Char) (q : Nat) (hq : q < (consPos t).length) :
    ∃ i, i < t.length ∧ (consPos t).getD q 0 = i ∧ isCons (t.getD i 'a') = true := by
  obtain ⟨i, hi, hg, hci⟩ := consPosFrom_getD_valid t 0 q hq
  exact ⟨i, hi, by simpa using hg, hci⟩

theorem consPos_count_at (t : List Char) (q : Nat) (hq : q < (consPos t).length) :
    (t.take ((consPos t).getD q 0)).countP (fun c => isCons c) = q := by
  have := consPosFrom_count_at t 0 q hq
  simpa using this

theorem consPos_getD_count (t : List Char) (i : Nat) (hi : i < t.length)
    (hci : isCons (t.getD i 'a') = true) :
    (consPos t).getD ((t.take i).countP (fun c => isCons c)) 0 = i := by
  have := consPosFrom_getD_count t 0 i hi hci
  simpa using this

theorem consPos_length_pos (t : List Char) (j : Nat) (hj : j < t.length)
    (hc : isCons (t.getD j 'a') = true) : 0 < (consPos t).length := by
  rw [consPos_length, List.countP_pos_iff]
  exact ⟨t.getD j 'a', by rw [List.getD_eq_getElem _ _ hj]; exact List.getElem_mem hj, hc⟩

theorem emod_toNat_lt (x : Int) (n : Nat) (hn : 0 < n) : (x % (n : Int)).toNat < n := by
  have hne : (n : Int) ≠ 0 := by exact_mod_cast Nat.pos_iff_ne_zero.1 hn
  have h1 : 0 ≤ x % (n : Int) := Int.emod_nonneg x hne
  have h2 : x % (n : Int) < (n : Int) := Int.emod_lt_of_pos x (by exact_mod_cast hn)
  omega

/-- Pointwise description of `rotate_consonants`: a consonant at position `j`
(preceded by `p` consonants) is replaced by the consonant at position
`cons_pos[(p + off) mod |cons_pos|]`, case-adjusted; other characters stay. -/
theorem rotate_consonants_getD (t : List Char) (off : Int) (j : Nat) (hj : j < t.length) :
    (rotate_consonants t off).getD j 'a' =
      if isCons (t.getD j 'a') = true then
        caseAdj (t.getD j 'a')
          (t.getD ((consPos t).getD
            (((((t.take j).countP (fun c => isCons c) : Nat) : Int) + off) %
              ((consPos t).length : Int)).toNat 0) 'a')
      else t.getD j 'a' := by
  rw [rotate_consonants]
  have h := rcGo_getD t (consPos t) off t 0 j hj
  simpa using h

/-- Claim C5: rotating the consonants by `off` and then by `-off` restores
every text exactly. -/
theorem rotate_consonants_inverse (t : List Char) (off : Int) :
    rotate_consonants (rotate_consonants t off) (-off) = t := by
  have hlen1 : (rotate_consonants t off).length = t.length := by
    rw [rotate_consonants]; exact rcGo_length _ _ _ t 0
  have hpat : ∀ j, j < t.length →
      isCons ((rotate_consonants t off).getD j 'a') = isCons (t.getD j 'a') := by
    intro j hj
    rw [rotate_consonants_getD t off j hj]
    by_cases hc : isCons (t.getD j 'a') = true
    · rw [if_pos hc, hc]
      have hn : 0 < (consPos t).length := consPos_length_pos t j hj hc
      have hlt := emod_toNat_lt
        ((((t.take j).countP (fun c => isCons c) : Nat) : Int) + off) _ hn
      obtain ⟨i2, hi2, hg2, hc2⟩ := consPos_getD_valid t _ hlt
      rw [hg2]
      exact (consList_caseAdj_facts _ (isCons_iff_mem.1 hc) _ (isCons_iff_mem.1 hc2)).2.1
    · rw [if_neg hc]
  have hcp : consPos (rotate_consonants t off) = consPos t :=
    consPosFrom_pattern_eq (rotate_consonants t off) t 0 hlen1
      (fun j hj => hpat j (by omega))
  apply List.ext_getElem
  · rw [rotate_consonants, rcGo_length]; exact hlen1
  intro j hj1 hj2
  rw [← List.getD_eq_getElem _ 'a' hj1, ← List.getD_eq_getElem _ 'a' hj2]
  rw [rotate_consonants_getD (rotate_consonants t off) (-off) j (by rw [hlen1]; exact hj2)]
  rw [hcp]
  by_cases hc : isCons (t.getD j 'a') = true
  · rw [if_pos (by rw [hpat j hj2]; exact hc)]
    have hcnt : ((rotate_consonants t off).take j).countP (fun c => isCons c) =
        (t.take j).countP (fun c => isCons c) := by
      apply countP_pattern_eq
      · rw [List.length_take, List.length_take, hlen1]
      · intro i hi
        rw [List.length_take] at hi
        have hij : i < j := by omega
        have hit : i < t.length := by omega
        rw [getD_take_eq _ j i hij (by omega), getD_take_eq _ j i hij hit]
        exact hpat i hit
    rw [hcnt]
    have hn : 0 < (consPos t).length := consPos_length_pos t j hj2 hc
    have ha2lt : (((((t.take j).countP (fun c => isCons c) : Nat) : Int) + -off) %
        ((consPos t).length : Int)).toNat < (consPos t).length :=
      emod_toNat_lt _ _ hn
    obtain ⟨j2, hj2lt, hg2, hcj2⟩ := consPos_getD_valid t _ ha2lt
    rw [hg2]
    rw [rotate_consonants_getD t off j2 hj2lt, if_pos hcj2]
    have hq : (t.take j2).countP (fun c => isCons c) =
        (((((t.take j).countP (fun c => isCons c) : Nat) : Int) + -off) %
          ((consPos t).length : Int)).toNat := by
      have h := consPos_count_at t _ ha2lt
      rw [hg2] at h
      exact h
    rw [hq]
    have hplt : (t.take j).countP (fun c => isCons c) < (consPos t).length := by
      rw [consPos_length]
      exact countP_take_lt t j hj2 hc
    have hidx : ((((((((t.take j).countP (fun c => isCons c) : Nat) : Int) + -off) %
          ((consPos t).length : Int)).toNat : Nat) : Int) + off) %
          ((consPos t).length : Int) =
        (((t.take j).countP (fun c => isCons c) : Nat) : Int) := by
      rw [Int.toNat_of_nonneg (Int.emod_nonneg _ (by exact_mod_cast Nat.pos_iff_ne_zero.1 hn))]
      rw [Int.emod_add_emod]
      have harith : (((t.take j).countP (fun c => isCons c) : Nat) : Int) + -off + off =
          (((t.take j).countP (fun c => isCons c) : Nat) : Int) := by ring
      rw [harith]
      exact Int.emod_eq_of_lt (Int.natCast_nonneg _) (by exact_mod_cast hplt)
    rw [hidx, Int.toNat_natCast]
    rw [consPos_getD_count t j hj2 hc]
    rw [rotate_consonants_getD t off j hj2, if_pos hc]
    obtain ⟨i3, hi3, hg3, hc3⟩ := consPos_getD_valid t _
      (emod_toNat_lt ((((t.take j).countP (fun c => isCons c) : Nat) : Int) + off) _ hn)
    rw [hg3]
    have hcongr : (caseAdj (t.getD j 'a') (t.getD i3 'a')).isUpper =
        (t.getD j 'a').isUpper :=
      (consList_caseAdj_facts _ (isCons_iff_mem.1 hc) _ (isCons_iff_mem.1 hc3)).1
    rw [caseAdj_congr hcongr]
    exact (consList_caseAdj_facts _ (isCons_iff_mem.1 hc) _ (isCons_iff_mem.1 hcj2)).2.2
  · rw [if_neg (by rw [hpat j hj2]; exact hc)]
    rw [rotate_consonants_getD t off j hj2, if_neg hc]

end WordProblems
